import Mathlib

/-!
Shallow embedding of `src/main.rs` of the `akame` repository: a Redis
slow-log monitor.  The program probes the server version once
(`get_version`), then loops forever: it fetches the 100 most recent
slow-log records (`get_slowlogs`), decodes each one with a schema gated
on the probed major version, filters out its own monitoring commands,
and prints every entry whose id it has not seen before, registering the
id in a `HashMap` (`all_slowlogs`).

External collaborators (the redis client, the network, `chrono`) are
embedded by their observable behaviour:
  * a redis reply (`redis::Value`) is the inductive `RValue`;
  * `FromRedisValue` tuple conversion requires a `Bulk` of exactly the
    tuple's arity (redis-rs `from_redis_value_for_tuple`), numeric
    conversion accepts `Int` (cast `as u64`, i.e. modulo 2^64) or a
    numeric `Data`/`Status` payload, string conversion accepts
    `Data`/`Status`/`Okay`/`Int`;
  * `chrono::NaiveDateTime::from_timestamp_opt(secs, 0)` succeeds
    exactly on the seconds range of `NaiveDate::MIN = -262144-01-01` to
    `NaiveDate::MAX = 262143-12-31`, i.e. on
    `[-8334632851200, 8210298412799]`;
  * a Rust panic (`expect`, `unwrap`, index out of bounds) is
    `Except.error`: the process aborts.
Machine integers (`u64`, `usize`) are `Nat`; the only place overflow
can matter, the `as i64` cast of the timestamp and the `as u64` cast of
a redis integer, is made explicit with `% 2^64` / `2^63` tests.
The one floating-point expression of the program,
`subsec_nanos() as f64 * 1e-6`, is idealised as the exact rational
`nanos / 10^6`; every `u32` is exactly representable in `f64` and the
claims about this value concern factor-of-1000 discrepancies, far above
`f64` rounding error.  The `{:.1}` rendering of that number is output
formatting outside the data model.
-/

deriving instance DecidableEq for Except

namespace Akame

/-- `lazy_static! IGNORE_COMMANDS: Vec<&str> = vec!["SLOWLOG", "INFO"]`. -/
def IGNORE_COMMANDS : List String := ["SLOWLOG", "INFO"]

/-- `struct RedisVersion { major, minor, patch: usize }`. -/
structure RedisVersion where
  major : Nat
  minor : Nat
  patch : Nat
deriving DecidableEq

/-- `std::time::Duration`, kept as the pair stored by Rust:
whole seconds and sub-second nanoseconds. -/
structure Duration where
  secs : Nat
  nanos : Nat
deriving DecidableEq

/-- `Duration::from_micros(us)`: `secs = us / 10^6`,
`subsec_nanos = (us % 10^6) * 1000`. -/
def Duration.from_micros (us : Nat) : Duration :=
  { secs := us / 1000000, nanos := (us % 1000000) * 1000 }

/-- `Duration::subsec_nanos()`. -/
def Duration.subsec_nanos (d : Duration) : Nat := d.nanos

/-- `struct RedisSlowlog` of the source. -/
structure RedisSlowlog where
  id : Nat
  timestamp : Nat
  exec_time : Duration
  cmd : List String
  address : String
  client_name : String
deriving DecidableEq

/-- `redis::Value`: the reply forms of the redis protocol as exposed by
redis-rs (`Nil`, `Int(i64)`, `Data(bytes)`, `Bulk(values)`,
`Status(string)`, `Okay`).  Byte payloads are modelled as their utf-8
string content. -/
inductive RValue where
  | nil : RValue
  | int : Int → RValue
  | data : String → RValue
  | bulk : List RValue → RValue
  | status : String → RValue
  | okay : RValue

/-- Rust `str::parse::<u64>` / `::<usize>` (64-bit): an optional
leading `+`, then one or more ascii digits, value below `2^64`
(overflow is an error).  Written on the character list so that it
evaluates by kernel reduction. -/
def parseUsize (s : String) : Option Nat :=
  let cs := match s.data with
    | '+' :: rest => rest
    | cs => cs
  match cs with
  | [] => none
  | _ :: _ =>
    if cs.all Char.isDigit then
      let n := cs.foldl (fun a c => a * 10 + (c.toNat - 48)) 0
      if n < 2 ^ 64 then some n else none
    else none

/-- Rust `str::split(sep)` on the character list: the (non-empty) list
of separator-delimited segments, empty segments included. -/
def splitChar (sep : Char) : List Char → List (List Char)
  | [] => [[]]
  | c :: cs =>
    if c = sep then [] :: splitChar sep cs
    else
      match splitChar sep cs with
      | [] => [[c]]
      | h :: t => (c :: h) :: t

/-- `version_str.split('.').collect::<Vec<&str>>()`. -/
def rustSplitDot (s : String) : List String :=
  (splitChar '.' s.data).map String.mk

/-- Rust `str::to_uppercase` restricted to ascii (every command token
and ignore-set member the program compares is ascii). -/
def toUpperAscii (s : String) : String :=
  String.mk (s.data.map Char.toUpper)

/-- redis-rs `FromRedisValue for u64`: an `Int` is cast `as u64`
(two's-complement, i.e. modulo `2^64`); a `Data`/`Status` payload is
parsed as a decimal number; everything else is a conversion error. -/
def decodeU64 : RValue → Option Nat
  | RValue.int i => some ((i % (2 ^ 64 : Int)).toNat)
  | RValue.data s => parseUsize s
  | RValue.status s => parseUsize s
  | _ => none

/-- redis-rs `FromRedisValue for String`. -/
def decodeString : RValue → Option String
  | RValue.data s => some s
  | RValue.status s => some s
  | RValue.okay => some "OK"
  | RValue.int i => some (toString i)
  | _ => none

/-- redis-rs `FromRedisValue for Vec<String>`: a `Bulk` whose items all
convert to strings. -/
def decodeStringList : RValue → Option (List String)
  | RValue.bulk items => items.mapM decodeString
  | _ => none

/-- redis-rs conversion to the extended 6-tuple
`(u64, u64, u64, Vec<String>, String, String)`: a `Bulk` of exactly six
items, converted fieldwise.  Any other arity or shape is a conversion
error (`Bulk response of wrong dimension`). -/
def decode6 (r : RValue) :
    Option (Nat × Nat × Nat × List String × String × String) :=
  match r with
  | RValue.bulk [a, b, c, d, e, f] => do
      let id ← decodeU64 a
      let ts ← decodeU64 b
      let us ← decodeU64 c
      let cmd ← decodeStringList d
      let addr ← decodeString e
      let name ← decodeString f
      pure (id, ts, us, cmd, addr, name)
  | _ => none

/-- redis-rs conversion to the legacy 4-tuple
`(u64, u64, u64, Vec<String>)`: a `Bulk` of exactly four items. -/
def decode4 (r : RValue) : Option (Nat × Nat × Nat × List String) :=
  match r with
  | RValue.bulk [a, b, c, d] => do
      let id ← decodeU64 a
      let ts ← decodeU64 b
      let us ← decodeU64 c
      let cmd ← decodeStringList d
      pure (id, ts, us, cmd)
  | _ => none

/-- The `RedisSlowlog` built from a decoded 6-tuple (extended schema
branch of `get_slowlogs`). -/
def entryOf6 (s : Nat × Nat × Nat × List String × String × String) :
    RedisSlowlog :=
  { id := s.1, timestamp := s.2.1,
    exec_time := Duration.from_micros s.2.2.1,
    cmd := s.2.2.2.1, address := s.2.2.2.2.1, client_name := s.2.2.2.2.2 }

/-- The `RedisSlowlog` built from a decoded 4-tuple (legacy schema
branch: `..RedisSlowlog::default()` leaves address and client name as
the empty string). -/
def entryOf4 (s : Nat × Nat × Nat × List String) : RedisSlowlog :=
  { id := s.1, timestamp := s.2.1,
    exec_time := Duration.from_micros s.2.2.1,
    cmd := s.2.2.2, address := "", client_name := "" }

/-- One record of the `for raw_slowlog in raw_slowlogs` body of
`get_slowlogs`, up to the `.unwrap()`: `if version >= 4` decode as a
6-tuple, else as a 4-tuple; a failed conversion panics
(`Except.error`). -/
def decodeRecord (version : Nat) (raw : RValue) :
    Except String RedisSlowlog :=
  if 4 ≤ version then
    match decode6 raw with
    | some s => Except.ok (entryOf6 s)
    | none => Except.error "called Result::unwrap() on an Err value"
  else
    match decode4 raw with
    | some s => Except.ok (entryOf4 s)
    | none => Except.error "called Result::unwrap() on an Err value"

/-- The ignore test of `get_slowlogs`:
`IGNORE_COMMANDS.contains(&slowlog.cmd[0].to_uppercase().as_str())`,
applied to the first command token.  `to_uppercase` is ascii
upper-casing here (every relevant token is ascii). -/
def shouldIgnore (c0 : String) : Bool :=
  IGNORE_COMMANDS.contains (toUpperAscii c0)

/-- `get_slowlogs`, given the raw reply records of
`SLOWLOG GET num`: decode each record by the
version-selected schema, panic on a record with no command token
(`slowlog.cmd[0]` is index out of bounds), skip (`continue`) the
records whose first token is an ignored command, and collect the rest
in order.  Any panic aborts the process (`Except.error`). -/
def getSlowlogs (version : Nat) : List RValue → Except String (List RedisSlowlog)
  | [] => Except.ok []
  | r :: rs =>
    match decodeRecord version r with
    | Except.error msg => Except.error msg
    | Except.ok e =>
      match e.cmd with
      | [] => Except.error "index out of bounds: the len is 0 but the index is 0"
      | c0 :: _ =>
        match getSlowlogs version rs with
        | Except.error msg => Except.error msg
        | Except.ok rest =>
          if shouldIgnore c0 then Except.ok rest
          else Except.ok (e :: rest)

/-- Rust `v[i]` on a `Vec<&str>`: the value, or an index panic. -/
def listIndex (l : List String) (i : Nat) : Except String String :=
  match l.get? i with
  | some s => Except.ok s
  | none => Except.error ("index out of bounds: the len is " ++
      toString l.length ++ " but the index is " ++ toString i)

/-- `s.parse::<usize>().expect(msg)`. -/
def expectParse (s msg : String) : Except String Nat :=
  match parseUsize s with
  | some n => Except.ok n
  | none => Except.error msg

/-- `get_version`, given the looked-up value of the `redis_version`
key of the `INFO server` reply (`info.get(..)`, a black-box dictionary
lookup returning `Option<String>`): `unwrap_or("")`, return `None` on
the empty string, otherwise `split('.')` and build
`RedisVersion { major: v[0].parse().expect(..), minor: v[1]...,
patch: v[2]... }`, evaluating the indexings and parses in field order;
any index or parse failure panics. -/
def get_version (versionValue : Option String) :
    Except String (Option RedisVersion) :=
  let version_str := versionValue.getD ""
  if version_str = "" then Except.ok none
  else
    let v := rustSplitDot version_str
    (listIndex v 0).bind fun s0 =>
      (expectParse s0 "invalid major version").bind fun major =>
        (listIndex v 1).bind fun s1 =>
          (expectParse s1 "invalid minor version").bind fun minor =>
            (listIndex v 2).bind fun s2 =>
              (expectParse s2 "invalid patch version").map fun patch =>
                some { major := major, minor := minor, patch := patch }

/-- The version line `main` prints to the operator. -/
def reportVersionLine : Option RedisVersion → String
  | some v => "redis version: " ++ toString v.major ++ "." ++
      toString v.minor ++ "." ++ toString v.patch
  | none => "redis version: unknown"

/-- `main`'s `redis_version_major`: the probed major, or `0` when the
version is unknown. -/
def versionMajor : Option RedisVersion → Nat
  | some v => v.major
  | none => 0

/-- `slowlog.timestamp as i64`: two's-complement reinterpretation of a
`u64` value as `i64`. -/
def u64_as_i64 (t : Nat) : Int :=
  if t < 2 ^ 63 then (t : Int) else (t : Int) - 2 ^ 64

/-- Smallest seconds value accepted by
`chrono::NaiveDateTime::from_timestamp_opt`: the Unix timestamp of
`NaiveDate::MIN = -262144-01-01T00:00:00`
(`(days_from_ce(-262144-01-01) - 719163) * 86400`). -/
def chronoMinTimestamp : Int := -8334632851200

/-- Largest seconds value accepted by
`chrono::NaiveDateTime::from_timestamp_opt`: the Unix timestamp of
`NaiveDate::MAX = 262143-12-31` at `23:59:59`. -/
def chronoMaxTimestamp : Int := 8210298412799

/-- `NaiveDateTime::from_timestamp_opt(secs, 0)`: `Some` exactly when
the seconds fall in chrono's representable calendar range; the value
is kept as its seconds (the later `DateTime::<Utc>::from_utc` is total
and only re-wraps it). -/
def fromTimestampOpt (secs : Int) : Option Int :=
  if chronoMinTimestamp ≤ secs ∧ secs ≤ chronoMaxTimestamp then some secs
  else none

/-- The timestamp conversion applied to an entry in `main`:
`NaiveDateTime::from_timestamp_opt(slowlog.timestamp as i64, 0)`. -/
def tsOpt (e : RedisSlowlog) : Option Int :=
  fromTimestampOpt (u64_as_i64 e.timestamp)

/-- The `subsec_nanos() as f64 * 1e-6` value printed as `time=..[ms]`,
idealised as an exact rational. -/
def printedMs (d : Duration) : ℚ :=
  (d.subsec_nanos : ℚ) / 1000000

/-- The full execution duration of an entry, in milliseconds. -/
def durationMs (d : Duration) : ℚ :=
  (d.secs : ℚ) * 1000 + (d.nanos : ℚ) / 1000000

/-- `main`'s `all_slowlogs: HashMap<u64, RedisSlowlog>`, as the list of
its key/value pairs (the map is only ever queried with `contains_key`
and extended with `insert` of an absent key, so insertion order is a
faithful representation). -/
abbrev Registry := List (Nat × RedisSlowlog)

/-- `all_slowlogs.contains_key(&id)`. -/
def regContainsKey (reg : Registry) (id : Nat) : Bool :=
  reg.any fun p => p.1 == id

/-- The data of one printed report line (the `println!` in the loop
body): id, the converted UTC timestamp seconds, the printed
milliseconds value, command tokens, address, client name. -/
structure ReportLine where
  id : Nat
  utc_secs : Int
  time_ms : ℚ
  cmd : List String
  address : String
  name : String
deriving DecidableEq

/-- One iteration of `for slowlog in slowlogs` in `main`: if the id is
already registered, do nothing; otherwise convert the timestamp —
`continue` (no report, no insert) if that fails — else print the report
line and insert the entry under its id. -/
def processEntry (reg : Registry) (e : RedisSlowlog) :
    Registry × Option ReportLine :=
  if regContainsKey reg e.id then (reg, none)
  else
    match tsOpt e with
    | none => (reg, none)
    | some secs =>
      ((e.id, e) :: reg,
        some { id := e.id, utc_secs := secs,
               time_ms := printedMs e.exec_time,
               cmd := e.cmd, address := e.address,
               name := e.client_name })

/-- Processing one fetched batch in `main`'s loop body: fold
`processEntry` over the entries in server order, collecting the printed
lines in order. -/
def processBatch : Registry → List RedisSlowlog → Registry × List ReportLine
  | reg, [] => (reg, [])
  | reg, e :: rest =>
    let p := processEntry reg e
    let q := processBatch p.1 rest
    (q.1, p.2.toList ++ q.2)

/-- A whole poll iteration from raw records: `get_slowlogs` (aborting
on any panic) followed by the loop body over the decoded batch. -/
def pollStep (version : Nat) (reg : Registry) (raws : List RValue) :
    Except String (Registry × List ReportLine) :=
  match getSlowlogs version raws with
  | Except.error m => Except.error m
  | Except.ok logs => Except.ok (processBatch reg logs)

/-- Any finite prefix of `main`'s infinite `loop`, over the decoded
batches the successive `get_slowlogs` calls return: thread the registry
through the iterations and concatenate the printed lines.  `main`
starts it with `HashMap::new()`, the empty registry. -/
def runPolls : Registry → List (List RedisSlowlog) → Registry × List ReportLine
  | reg, [] => (reg, [])
  | reg, b :: bs =>
    let p := processBatch reg b
    let q := runPolls p.1 bs
    (q.1, p.2 ++ q.2)

/-- Number of report lines carrying a given id. -/
def countId (id : Nat) (rs : List ReportLine) : Nat :=
  (rs.filter fun r => r.id == id).length

/-! Concrete fixtures used by the witnesses and counterexamples. -/

/-- A well-formed extended (6-field) raw record. -/
def raw6 : RValue :=
  RValue.bulk [RValue.int 1, RValue.int 1600000000, RValue.int 12345,
    RValue.bulk [RValue.data "GET", RValue.data "key"],
    RValue.data "127.0.0.1:50000", RValue.data "cli"]

/-- The decoded tuple of `raw6`. -/
def tup6 : Nat × Nat × Nat × List String × String × String :=
  (1, 1600000000, 12345, ["GET", "key"], "127.0.0.1:50000", "cli")

/-- A well-formed legacy (4-field) raw record. -/
def raw4 : RValue :=
  RValue.bulk [RValue.int 2, RValue.int 1600000001, RValue.int 500,
    RValue.bulk [RValue.data "SET", RValue.data "k", RValue.data "v"]]

/-- The decoded tuple of `raw4`. -/
def tup4 : Nat × Nat × Nat × List String :=
  (2, 1600000001, 500, ["SET", "k", "v"])

/-- A 6-field raw record whose command is the monitor's own
`SLOWLOG GET 100`, with id 7. -/
def rawIgnored : RValue :=
  RValue.bulk [RValue.int 7, RValue.int 1600000000, RValue.int 12000,
    RValue.bulk [RValue.data "SLOWLOG", RValue.data "GET", RValue.data "100"],
    RValue.data "127.0.0.1:6379", RValue.data ""]

/-- A 6-field raw record with an empty command token list. -/
def rawNoCmd : RValue :=
  RValue.bulk [RValue.int 8, RValue.int 1600000000, RValue.int 12000,
    RValue.bulk [], RValue.data "127.0.0.1:6379", RValue.data ""]

/-- A valid decoded entry, id 1. -/
def entryA : RedisSlowlog :=
  { id := 1, timestamp := 1600000000,
    exec_time := Duration.from_micros 12000,
    cmd := ["GET", "key"], address := "", client_name := "" }

/-- A valid decoded entry, id 2. -/
def entryB : RedisSlowlog :=
  { id := 2, timestamp := 1600000050,
    exec_time := Duration.from_micros 34000,
    cmd := ["SET", "k", "v"], address := "", client_name := "" }

/-- A valid decoded entry, id 4. -/
def entryC : RedisSlowlog :=
  { id := 4, timestamp := 1600000051,
    exec_time := Duration.from_micros 800,
    cmd := ["DEL", "k"], address := "", client_name := "" }

/-- A decoded entry, id 3, whose timestamp (9·10^12 seconds) is beyond
chrono's maximal calendar instant, so its conversion fails. -/
def entryBad : RedisSlowlog :=
  { id := 3, timestamp := 9000000000000,
    exec_time := Duration.from_micros 700,
    cmd := ["LPUSH", "q", "x"], address := "", client_name := "" }

/-- A valid decoded entry, id 9, whose execution took 1.5 seconds
(1500000 microseconds). -/
def entrySlow : RedisSlowlog :=
  { id := 9, timestamp := 1600000100,
    exec_time := Duration.from_micros 1500000,
    cmd := ["KEYS", "a"], address := "", client_name := "" }

/-- The entry decoded from `raw6`. -/
def entry6 : RedisSlowlog := entryOf6 tup6

/-- A well-formed extended raw record (id 11) whose command ran
1500000 microseconds, i.e. 1.5 seconds. -/
def rawSlow : RValue :=
  RValue.bulk [RValue.int 11, RValue.int 1600000100, RValue.int 1500000,
    RValue.bulk [RValue.data "KEYS", RValue.data "a"],
    RValue.data "127.0.0.1:50001", RValue.data "cli2"]

/-- The report line the loop prints for a fresh `entryA`. -/
def reportA : ReportLine :=
  { id := 1, utc_secs := 1600000000,
    time_ms := printedMs entryA.exec_time,
    cmd := ["GET", "key"], address := "", name := "" }

/-- The report line the loop prints for a fresh `entrySlow`. -/
def reportSlow : ReportLine :=
  { id := 9, utc_secs := 1600000100,
    time_ms := printedMs entrySlow.exec_time,
    cmd := ["KEYS", "a"], address := "", name := "" }

/-! ## Basic lemmas about the registry and the loop body -/

theorem regContainsKey_cons (x : Nat × RedisSlowlog) (reg : Registry) (id : Nat) :
    regContainsKey (x :: reg) id = (x.1 == id || regContainsKey reg id) := by
  simp [regContainsKey]

theorem processEntry_invalid (reg : Registry) (e : RedisSlowlog)
    (h : tsOpt e = none) : processEntry reg e = (reg, none) := by
  unfold processEntry
  rw [h]
  split <;> rfl

theorem processEntry_seen (reg : Registry) (e : RedisSlowlog)
    (h : regContainsKey reg e.id = true) : processEntry reg e = (reg, none) := by
  simp [processEntry, h]

theorem processEntry_fresh_valid (reg : Registry) (e : RedisSlowlog) (secs : Int)
    (h : regContainsKey reg e.id = false) (hts : tsOpt e = some secs) :
    processEntry reg e =
      ((e.id, e) :: reg,
        some { id := e.id, utc_secs := secs, time_ms := printedMs e.exec_time,
               cmd := e.cmd, address := e.address, name := e.client_name }) := by
  simp [processEntry, h, hts]

theorem processEntry_contains_mono (reg : Registry) (e : RedisSlowlog) (id : Nat)
    (h : regContainsKey reg id = true) :
    regContainsKey (processEntry reg e).1 id = true := by
  cases hc : regContainsKey reg e.id with
  | true => simp [processEntry_seen reg e hc, h]
  | false =>
    cases hts : tsOpt e with
    | none => simp [processEntry_invalid reg e hts, h]
    | some s => simp [processEntry_fresh_valid reg e s hc hts, regContainsKey_cons, h]

theorem processEntry_contains_other (reg : Registry) (e : RedisSlowlog) (id : Nat)
    (hne : e.id ≠ id) :
    regContainsKey (processEntry reg e).1 id = regContainsKey reg id := by
  cases hc : regContainsKey reg e.id with
  | true => simp [processEntry_seen reg e hc]
  | false =>
    cases hts : tsOpt e with
    | none => simp [processEntry_invalid reg e hts]
    | some s =>
      simp [processEntry_fresh_valid reg e s hc hts, regContainsKey_cons,
        Nat.beq_eq_true_eq, hne]

theorem processEntry_contains_after (reg : Registry) (e : RedisSlowlog) (id : Nat)
    (h : regContainsKey (processEntry reg e).1 id = true) :
    regContainsKey reg id = true ∨ (e.id = id ∧ tsOpt e ≠ none) := by
  cases hc : regContainsKey reg e.id with
  | true => rw [processEntry_seen reg e hc] at h; exact Or.inl h
  | false =>
    cases hts : tsOpt e with
    | none => rw [processEntry_invalid reg e hts] at h; exact Or.inl h
    | some s =>
      rw [processEntry_fresh_valid reg e s hc hts] at h
      simp only [regContainsKey_cons] at h
      rcases Bool.or_eq_true_iff.mp h with h1 | h2
      · exact Or.inr ⟨by simpa using h1, by simp [hts]⟩
      · exact Or.inl h2

theorem processEntry_report (reg : Registry) (e : RedisSlowlog) (rep : ReportLine)
    (h : (processEntry reg e).2 = some rep) :
    rep.id = e.id ∧ rep.time_ms = printedMs e.exec_time ∧ rep.cmd = e.cmd ∧
      rep.address = e.address ∧ rep.name = e.client_name ∧
      regContainsKey reg e.id = false ∧ tsOpt e ≠ none ∧
      regContainsKey (processEntry reg e).1 e.id = true := by
  cases hc : regContainsKey reg e.id with
  | true => rw [processEntry_seen reg e hc] at h; cases h
  | false =>
    cases hts : tsOpt e with
    | none => rw [processEntry_invalid reg e hts] at h; cases h
    | some s =>
      have hpe := processEntry_fresh_valid reg e s hc hts
      rw [hpe] at h
      have hrep := Option.some.inj h
      subst hrep
      refine ⟨rfl, rfl, rfl, rfl, rfl, rfl, by simp, ?_⟩
      rw [hpe]
      simp [regContainsKey_cons]

theorem processEntry_count (reg : Registry) (e : RedisSlowlog) (id : Nat) :
    countId id (processEntry reg e).2.toList + (regContainsKey reg id).toNat
      ≤ (regContainsKey (processEntry reg e).1 id).toNat := by
  cases hc : regContainsKey reg e.id with
  | true => simp [processEntry_seen reg e hc, countId]
  | false =>
    cases hts : tsOpt e with
    | none => simp [processEntry_invalid reg e hts, countId]
    | some s =>
      rw [processEntry_fresh_valid reg e s hc hts]
      by_cases hid : e.id = id
      · subst hid
        simp [countId, regContainsKey_cons, hc]
      · have h2 : (e.id == id) = false := by simp [hid]
        simp [countId, regContainsKey_cons, h2]

theorem processBatch_cons (reg : Registry) (e : RedisSlowlog)
    (rest : List RedisSlowlog) :
    processBatch reg (e :: rest) =
      ((processBatch (processEntry reg e).1 rest).1,
        (processEntry reg e).2.toList ++ (processBatch (processEntry reg e).1 rest).2) :=
  rfl

theorem countId_append (id : Nat) (a b : List ReportLine) :
    countId id (a ++ b) = countId id a + countId id b := by
  simp [countId, List.filter_append]

theorem processBatch_contains_mono (reg : Registry) (batch : List RedisSlowlog)
    (id : Nat) (h : regContainsKey reg id = true) :
    regContainsKey (processBatch reg batch).1 id = true := by
  induction batch generalizing reg with
  | nil => simpa [processBatch] using h
  | cons e rest ih =>
    rw [processBatch_cons]
    exact ih (processEntry reg e).1 (processEntry_contains_mono reg e id h)

theorem processBatch_count (reg : Registry) (batch : List RedisSlowlog) (id : Nat) :
    countId id (processBatch reg batch).2 + (regContainsKey reg id).toNat
      ≤ (regContainsKey (processBatch reg batch).1 id).toNat := by
  induction batch generalizing reg with
  | nil => simp [processBatch, countId]
  | cons e rest ih =>
    rw [processBatch_cons]
    have h1 := processEntry_count reg e id
    have h2 := ih (processEntry reg e).1
    simp only [countId_append]
    omega

theorem processBatch_contains_after (reg : Registry) (batch : List RedisSlowlog)
    (id : Nat) (h : regContainsKey (processBatch reg batch).1 id = true) :
    regContainsKey reg id = true ∨ ∃ e, e ∈ batch ∧ e.id = id := by
  induction batch generalizing reg with
  | nil => exact Or.inl (by simpa [processBatch] using h)
  | cons e rest ih =>
    rw [processBatch_cons] at h
    rcases ih (processEntry reg e).1 h with h1 | ⟨x, hx, hxid⟩
    · rcases processEntry_contains_after reg e id h1 with h2 | ⟨hid, _⟩
      · exact Or.inl h2
      · exact Or.inr ⟨e, by simp, hid⟩
    · exact Or.inr ⟨x, by simp [hx], hxid⟩

theorem processBatch_report_mem (reg : Registry) (batch : List RedisSlowlog)
    (rep : ReportLine) (h : rep ∈ (processBatch reg batch).2) :
    ∃ e, e ∈ batch ∧ rep.id = e.id ∧ rep.time_ms = printedMs e.exec_time ∧
      rep.cmd = e.cmd := by
  induction batch generalizing reg with
  | nil => simp [processBatch] at h
  | cons e rest ih =>
    rw [processBatch_cons] at h
    rcases List.mem_append.mp h with h1 | h2
    · cases hp : (processEntry reg e).2 with
      | none => rw [hp] at h1; simp at h1
      | some r =>
        rw [hp] at h1
        simp only [Option.toList_some, List.mem_singleton] at h1
        subst h1
        obtain ⟨hid, hms, hcmd, _⟩ := processEntry_report reg e rep hp
        exact ⟨e, by simp, hid, hms, hcmd⟩
    · obtain ⟨x, hx, hrest⟩ := ih (processEntry reg e).1 h2
      exact ⟨x, by simp [hx], hrest⟩

theorem processBatch_fresh_valid_reported (reg : Registry)
    (batch : List RedisSlowlog) (e : RedisSlowlog) (he : e ∈ batch)
    (hfresh : regContainsKey reg e.id = false) (hv : tsOpt e ≠ none)
    (huniq : ∀ e2, e2 ∈ batch → e2.id = e.id → e2 = e) :
    e.id ∈ (processBatch reg batch).2.map ReportLine.id := by
  induction batch generalizing reg with
  | nil => cases he
  | cons x rest ih =>
    rw [processBatch_cons]
    by_cases hx : x.id = e.id
    · have hxe : x = e := huniq x (by simp) hx
      subst hxe
      obtain ⟨s, hs⟩ := Option.ne_none_iff_exists'.mp hv
      rw [processEntry_fresh_valid reg x s hfresh hs]
      simp
    · have he2 : e ∈ rest := by
        rcases List.mem_cons.mp he with h' | h'
        · exact absurd (congrArg RedisSlowlog.id h'.symm) hx
        · exact h'
      have hfresh2 : regContainsKey (processEntry reg x).1 e.id = false := by
        rw [processEntry_contains_other reg x e.id hx]
        exact hfresh
      have hmem := ih (processEntry reg x).1 he2
        hfresh2 (fun e2 h2 hid => huniq e2 (by simp [h2]) hid)
      simp [hmem]

theorem processBatch_invalid_untouched (reg : Registry)
    (batch : List RedisSlowlog) (id : Nat)
    (hfresh : regContainsKey reg id = false)
    (hall : ∀ e2, e2 ∈ batch → e2.id = id → tsOpt e2 = none) :
    regContainsKey (processBatch reg batch).1 id = false ∧
      id ∉ (processBatch reg batch).2.map ReportLine.id := by
  induction batch generalizing reg with
  | nil => simp [processBatch, hfresh]
  | cons x rest ih =>
    rw [processBatch_cons]
    have htail : ∀ e2, e2 ∈ rest → e2.id = id → tsOpt e2 = none :=
      fun e2 h2 hid => hall e2 (by simp [h2]) hid
    by_cases hx : x.id = id
    · have hinv : tsOpt x = none := hall x (by simp) hx
      rw [processEntry_invalid reg x hinv]
      have ihh := ih reg hfresh htail
      simpa using ihh
    · have hfresh2 : regContainsKey (processEntry reg x).1 id = false := by
        rw [processEntry_contains_other reg x id hx]
        exact hfresh
      have ihh := ih (processEntry reg x).1 hfresh2 htail
      refine ⟨ihh.1, ?_⟩
      intro hmem
      rw [List.map_append, List.mem_append] at hmem
      rcases hmem with h1 | h2
      · cases hp : (processEntry reg x).2 with
        | none => rw [hp] at h1; simp at h1
        | some r =>
          rw [hp] at h1
          simp only [Option.toList_some, List.map_cons, List.map_nil,
            List.mem_singleton] at h1
          obtain ⟨hid, _⟩ := processEntry_report reg x r hp
          exact hx (hid ▸ h1.symm ▸ rfl)
      · exact ihh.2 h2

theorem runPolls_cons (reg : Registry) (b : List RedisSlowlog)
    (bs : List (List RedisSlowlog)) :
    runPolls reg (b :: bs) =
      ((runPolls (processBatch reg b).1 bs).1,
        (processBatch reg b).2 ++ (runPolls (processBatch reg b).1 bs).2) :=
  rfl

theorem runPolls_contains_mono (reg : Registry) (bs : List (List RedisSlowlog))
    (id : Nat) (h : regContainsKey reg id = true) :
    regContainsKey (runPolls reg bs).1 id = true := by
  induction bs generalizing reg with
  | nil => simpa [runPolls] using h
  | cons b rest ih =>
    rw [runPolls_cons]
    exact ih (processBatch reg b).1 (processBatch_contains_mono reg b id h)

theorem runPolls_count (reg : Registry) (bs : List (List RedisSlowlog)) (id : Nat) :
    countId id (runPolls reg bs).2 + (regContainsKey reg id).toNat
      ≤ (regContainsKey (runPolls reg bs).1 id).toNat := by
  induction bs generalizing reg with
  | nil => simp [runPolls, countId]
  | cons b rest ih =>
    rw [runPolls_cons]
    have h1 := processBatch_count reg b id
    have h2 := ih (processBatch reg b).1
    simp only [countId_append]
    omega

/-! ## Lemmas about `get_slowlogs` -/

theorem getSlowlogs_ok_not_ignored (v : Nat) (raws : List RValue)
    (logs : List RedisSlowlog) (h : getSlowlogs v raws = Except.ok logs) :
    ∀ e, e ∈ logs → shouldIgnore (e.cmd.headD "") = false := by
  induction raws generalizing logs with
  | nil =>
    have h2 : logs = [] := by
      simpa [getSlowlogs] using h.symm
    subst h2
    intro e he
    cases he
  | cons r rs ih =>
    cases hd : decodeRecord v r with
    | error m => simp [getSlowlogs, hd] at h
    | ok e0 =>
      cases hcmd : e0.cmd with
      | nil => simp [getSlowlogs, hd, hcmd] at h
      | cons c0 cs =>
        cases hrest : getSlowlogs v rs with
        | error m => simp [getSlowlogs, hd, hcmd, hrest] at h
        | ok rest =>
          cases hig : shouldIgnore c0 with
          | true =>
            simp only [getSlowlogs, hd, hcmd, hrest, hig, if_pos] at h
            have h2 : rest = logs := by simpa using h
            subst h2
            exact ih _ hrest
          | false =>
            simp only [getSlowlogs, hd, hcmd, hrest, hig, Bool.false_eq_true,
              if_false] at h
            have h2 : e0 :: rest = logs := by simpa using h
            subst h2
            intro e he
            rcases List.mem_cons.mp he with h3 | h3
            · subst h3
              rw [hcmd]
              simpa using hig
            · exact ih rest hrest e h3

theorem getSlowlogs_empty_cmd_error (v : Nat) (raws : List RValue)
    (hx : ∃ r, r ∈ raws ∧ ∃ e, decodeRecord v r = Except.ok e ∧ e.cmd = []) :
    ∃ msg, getSlowlogs v raws = Except.error msg := by
  induction raws with
  | nil =>
    obtain ⟨r, hr, _⟩ := hx
    cases hr
  | cons r0 rs ih =>
    obtain ⟨r, hr, e, hdec, hcmd⟩ := hx
    cases hd : decodeRecord v r0 with
    | error m => exact ⟨m, by simp [getSlowlogs, hd]⟩
    | ok e0 =>
      cases hcmd0 : e0.cmd with
      | nil =>
        exact ⟨"index out of bounds: the len is 0 but the index is 0",
          by simp [getSlowlogs, hd, hcmd0]⟩
      | cons c0 cs =>
        have hrtail : r ∈ rs := by
          rcases List.mem_cons.mp hr with h1 | h1
          · subst h1
            rw [hd] at hdec
            have he0 : e0 = e := Except.ok.inj hdec
            rw [he0, hcmd] at hcmd0
            cases hcmd0
          · exact h1
        obtain ⟨m, hm⟩ := ih ⟨r, hrtail, e, hdec, hcmd⟩
        refine ⟨m, ?_⟩
        simp [getSlowlogs, hd, hcmd0, hm]

theorem getSlowlogs_all_good_ok (v : Nat) (raws : List RValue)
    (hall : ∀ r, r ∈ raws → ∃ e, decodeRecord v r = Except.ok e ∧ e.cmd ≠ []) :
    ∃ logs, getSlowlogs v raws = Except.ok logs := by
  induction raws with
  | nil => exact ⟨[], rfl⟩
  | cons r0 rs ih =>
    obtain ⟨e0, hd, hcmd⟩ := hall r0 (by simp)
    obtain ⟨rest, hrest⟩ := ih fun r hr => hall r (by simp [hr])
    cases hcmd0 : e0.cmd with
    | nil => exact absurd hcmd0 hcmd
    | cons c0 cs =>
      cases hig : shouldIgnore c0 with
      | true => exact ⟨rest, by simp [getSlowlogs, hd, hcmd0, hrest, hig]⟩
      | false =>
        exact ⟨e0 :: rest, by
          simp [getSlowlogs, hd, hcmd0, hrest, hig]⟩

theorem getSlowlogs_singleton (v : Nat) (r : RValue) (e : RedisSlowlog)
    (c0 : String) (cs : List String) (hd : decodeRecord v r = Except.ok e)
    (hcmd : e.cmd = c0 :: cs) :
    (getSlowlogs v [r] = Except.ok [] ↔ shouldIgnore c0 = true) ∧
      (getSlowlogs v [r] = Except.ok [e] ↔ shouldIgnore c0 = false) := by
  cases hig : shouldIgnore c0 with
  | true =>
    constructor
    · simp [getSlowlogs, hd, hcmd, hig]
    · constructor
      · intro h2
        simp [getSlowlogs, hd, hcmd, hig] at h2
      · intro h2
        cases h2
  | false =>
    constructor
    · constructor
      · intro h2
        simp [getSlowlogs, hd, hcmd, hig] at h2
      · intro h2
        cases h2
    · simp [getSlowlogs, hd, hcmd, hig]

/-! ## Lemmas about version parsing -/

theorem splitChar_ne_nil (sep : Char) (cs : List Char) :
    splitChar sep cs ≠ [] := by
  induction cs with
  | nil => simp [splitChar]
  | cons c cs ih =>
    unfold splitChar
    by_cases hc : c = sep
    · simp [hc]
    · cases h : splitChar sep cs with
      | nil => exact absurd h ih
      | cons hh tt => simp [hc, h]

theorem parseUsize_empty : parseUsize "" = none := rfl

theorem listIndex_lt (l : List String) (i : Nat) (h : i < l.length) :
    listIndex l i = Except.ok (l.getD i "") := by
  simp [listIndex, List.getD, List.get?_eq_getElem?, List.getElem?_eq_getElem h]

theorem listIndex_ge (l : List String) (i : Nat) (h : l.length ≤ i) :
    listIndex l i = Except.error ("index out of bounds: the len is " ++
      toString l.length ++ " but the index is " ++ toString i) := by
  simp [listIndex, List.get?_eq_getElem?, List.getElem?_eq_none h]

theorem parse_getD_lt (l : List String) (i n : Nat)
    (h : parseUsize (l.getD i "") = some n) : i < l.length := by
  by_contra hlt
  rw [List.getD_eq_default _ _ (Nat.le_of_not_lt hlt)] at h
  rw [parseUsize_empty] at h
  cases h

theorem decode6_wrong_arity (l : List RValue) (h : l.length ≠ 6) :
    decode6 (RValue.bulk l) = none := by
  rcases l with _ | ⟨a, _ | ⟨b, _ | ⟨c, _ | ⟨d, _ | ⟨e, _ | ⟨f, _ | ⟨g, t⟩⟩⟩⟩⟩⟩⟩
  · rfl
  · rfl
  · rfl
  · rfl
  · rfl
  · rfl
  · exact absurd rfl h
  · rfl

theorem decode4_wrong_arity (l : List RValue) (h : l.length ≠ 4) :
    decode4 (RValue.bulk l) = none := by
  rcases l with _ | ⟨a, _ | ⟨b, _ | ⟨c, _ | ⟨d, _ | ⟨e, t⟩⟩⟩⟩⟩
  · rfl
  · rfl
  · rfl
  · rfl
  · exact absurd rfl h
  · rfl

/-! ## Claim theorems -/

/-- C1: at-most-once reporting — over any finite run of the poll loop
started from the empty registry, each entry id is printed at most once;
moreover a line is emitted only when the id is absent from the
seen-registry, and the id is registered in the same step. -/
theorem at_most_once_reporting (batches : List (List RedisSlowlog)) (id : Nat) :
    countId id (runPolls [] batches).2 ≤ 1 ∧
      ∀ reg : Registry, ∀ e : RedisSlowlog, ∀ rep : ReportLine,
        (processEntry reg e).2 = some rep →
        rep.id = e.id ∧ regContainsKey reg e.id = false ∧
          regContainsKey (processEntry reg e).1 e.id = true := by
  constructor
  · have h := runPolls_count [] batches id
    have h2 : (regContainsKey [] id).toNat = 0 := rfl
    have h3 : (regContainsKey (runPolls [] batches).1 id).toNat ≤ 1 := by
      cases regContainsKey (runPolls [] batches).1 id <;> simp
    omega
  · intro reg e rep h
    obtain ⟨h1, _, _, _, _, h6, _, h8⟩ := processEntry_report reg e rep h
    exact ⟨h1, h6, h8⟩

theorem at_most_once_reporting_witness :
    countId 1 (runPolls [] [[entryA], [entryA]]).2 ≤ 1 ∧
      (reportA.id = entryA.id ∧ regContainsKey [] entryA.id = false ∧
        regContainsKey (processEntry [] entryA).1 entryA.id = true) :=
  ⟨(at_most_once_reporting [[entryA], [entryA]] 1).1,
   (at_most_once_reporting [[entryA], [entryA]] 1).2 [] entryA reportA rfl⟩

/-- C5: timestamp-failure isolation — an entry whose timestamp fails
to convert is neither reported nor registered (and the same holds for
its id when every batch entry with that id is invalid), while a valid,
novel entry of the same batch is still reported; the batch function is
total, so the loop never aborts on a bad timestamp. -/
theorem timestamp_failure_isolation (reg : Registry)
    (batch : List RedisSlowlog) (e : RedisSlowlog)
    (hfresh : regContainsKey reg e.id = false) :
    (tsOpt e = none →
        (∀ e2, e2 ∈ batch → e2.id = e.id → tsOpt e2 = none) →
        regContainsKey (processBatch reg batch).1 e.id = false ∧
          e.id ∉ (processBatch reg batch).2.map ReportLine.id) ∧
      (e ∈ batch → tsOpt e ≠ none →
        (∀ e2, e2 ∈ batch → e2.id = e.id → e2 = e) →
        e.id ∈ (processBatch reg batch).2.map ReportLine.id) := by
  constructor
  · intro _ hall
    exact processBatch_invalid_untouched reg batch e.id hfresh hall
  · intro he hv huniq
    exact processBatch_fresh_valid_reported reg batch e he hfresh hv huniq

theorem timestamp_failure_isolation_witness :
    (regContainsKey (processBatch [] [entryA, entryBad, entryB]).1 entryBad.id
          = false ∧
        entryBad.id ∉
          (processBatch [] [entryA, entryBad, entryB]).2.map ReportLine.id) ∧
      entryA.id ∈ (processBatch [] [entryA, entryBad, entryB]).2.map ReportLine.id :=
  ⟨(timestamp_failure_isolation [] [entryA, entryBad, entryB] entryBad rfl).1
      (by decide) (by decide),
   (timestamp_failure_isolation [] [entryA, entryBad, entryB] entryA rfl).2
      (by decide) (by decide) (by decide)⟩

/-- C6: case-insensitive exact-match ignore filtering — the ignore test
holds exactly when the upper-cased first token equals a member of
{"SLOWLOG", "INFO"}; a decoded single-record fetch drops the record iff
the test holds; "slowlog", "SLOWLOG" and "SlowLog" are all excluded,
while supersets of the tokens are not. -/
theorem ignore_filter_case_insensitive :
    (∀ s : String, shouldIgnore s = true ↔
        (toUpperAscii s = "SLOWLOG" ∨ toUpperAscii s = "INFO")) ∧
      (∀ v : Nat, ∀ r : RValue, ∀ e : RedisSlowlog, ∀ c0 : String,
        ∀ cs : List String,
        decodeRecord v r = Except.ok e → e.cmd = c0 :: cs →
        ((getSlowlogs v [r] = Except.ok [] ↔ shouldIgnore c0 = true) ∧
          (getSlowlogs v [r] = Except.ok [e] ↔ shouldIgnore c0 = false))) ∧
      shouldIgnore "slowlog" = true ∧ shouldIgnore "SLOWLOG" = true ∧
      shouldIgnore "SlowLog" = true ∧ shouldIgnore "INFO" = true ∧
      shouldIgnore "info" = true ∧ shouldIgnore "SLOWLOGS" = false ∧
      shouldIgnore "XINFO" = false ∧ shouldIgnore "GET" = false := by
  refine ⟨?_, fun v r e c0 cs hd hcmd => getSlowlogs_singleton v r e c0 cs hd hcmd,
    by decide, by decide, by decide, by decide, by decide, by decide,
    by decide, by decide⟩
  intro s
  simp [shouldIgnore, IGNORE_COMMANDS]

theorem ignore_filter_case_insensitive_witness :
    (shouldIgnore "GET" = true ↔
        (toUpperAscii "GET" = "SLOWLOG" ∨ toUpperAscii "GET" = "INFO")) ∧
      (getSlowlogs 6 [raw6] = Except.ok [entry6] ↔ shouldIgnore "GET" = false) :=
  ⟨ignore_filter_case_insensitive.1 "GET",
   (ignore_filter_case_insensitive.2.1 6 raw6 entry6 "GET" ["key"] rfl rfl).2⟩

/-- C7: registry monotonicity — every id present in the seen-registry
before a poll iteration is still present after it, and after any
further finite run of the loop; nothing ever removes an id. -/
theorem registry_monotonic (reg : Registry) (batch : List RedisSlowlog)
    (bs : List (List RedisSlowlog)) (id : Nat)
    (h : regContainsKey reg id = true) :
    regContainsKey (processBatch reg batch).1 id = true ∧
      regContainsKey (runPolls reg bs).1 id = true :=
  ⟨processBatch_contains_mono reg batch id h,
   runPolls_contains_mono reg bs id h⟩

theorem registry_monotonic_witness :
    regContainsKey (processBatch [(1, entryA)] [entryB]).1 1 = true ∧
      regContainsKey (runPolls [(1, entryA)] [[entryB], [entryBad]]).1 1 = true :=
  registry_monotonic [(1, entryA)] [entryB] [[entryB], [entryBad]] 1 rfl

/-- C9: a missing or empty `redis_version` value is not an error: the
probe returns no version, the operator line prints "unknown", the major
defaults to 0, and decoding then takes the legacy 4-tuple path. -/
theorem missing_version_legacy :
    get_version none = Except.ok none ∧
      get_version (some "") = Except.ok none ∧
      reportVersionLine none = "redis version: unknown" ∧
      versionMajor none = 0 ∧
      ∀ r : RValue, ∀ s : Nat × Nat × Nat × List String,
        decode4 r = some s →
        decodeRecord (versionMajor none) r = Except.ok (entryOf4 s) := by
  refine ⟨rfl, rfl, rfl, rfl, ?_⟩
  intro r s h
  simp [decodeRecord, versionMajor, h]

theorem missing_version_legacy_witness :
    decodeRecord (versionMajor none) raw4 = Except.ok (entryOf4 tup4) :=
  missing_version_legacy.2.2.2.2 raw4 tup4 rfl

/-- C10: the non-empty-command invariant is an unchecked precondition —
a batch containing a record that decodes to an empty command list makes
the fetch abort (the `cmd[0]` access panics), while a batch whose
records all decode with a non-empty command list is processed without
that abort. -/
theorem empty_cmd_fatal (v : Nat) (raws : List RValue) :
    ((∃ r, r ∈ raws ∧ ∃ e, decodeRecord v r = Except.ok e ∧ e.cmd = []) →
        ∃ msg, getSlowlogs v raws = Except.error msg) ∧
      ((∀ r, r ∈ raws → ∃ e, decodeRecord v r = Except.ok e ∧ e.cmd ≠ []) →
        ∃ logs, getSlowlogs v raws = Except.ok logs) :=
  ⟨getSlowlogs_empty_cmd_error v raws, getSlowlogs_all_good_ok v raws⟩

theorem empty_cmd_fatal_witness :
    (∃ msg, getSlowlogs 6 [rawNoCmd] = Except.error msg) ∧
      ∃ logs, getSlowlogs 6 [raw6] = Except.ok logs :=
  ⟨(empty_cmd_fatal 6 [rawNoCmd]).1
      ⟨rawNoCmd, by simp,
        entryOf6 (8, 1600000000, 12000, [], "127.0.0.1:6379", ""), rfl, rfl⟩,
   (empty_cmd_fatal 6 [raw6]).2
      (fun r hr => by rw [List.mem_singleton.mp hr]; exact ⟨entry6, rfl, by decide⟩)⟩

/-- C2: version-gated schema selection — with probed major ≥ 4 a raw
record is decoded as the 6-tuple (and the entry carries address and
client name); with major < 4 (including the unknown-version default 0)
it is decoded as the 4-tuple with address and client name empty; a
record whose decode fails under the selected schema makes the fetch
abort; and a bulk of any arity other than the selected schema's never
decodes. -/
theorem version_gated_schema (v : Nat) (r : RValue) :
    (4 ≤ v →
        (∀ s, decode6 r = some s → decodeRecord v r = Except.ok (entryOf6 s)) ∧
          (decode6 r = none → ∃ msg, decodeRecord v r = Except.error msg)) ∧
      (v < 4 →
        (∀ s, decode4 r = some s →
            decodeRecord v r = Except.ok (entryOf4 s) ∧
              (entryOf4 s).address = "" ∧ (entryOf4 s).client_name = "") ∧
          (decode4 r = none → ∃ msg, decodeRecord v r = Except.error msg)) ∧
      (∀ l : List RValue, l.length ≠ 6 → decode6 (RValue.bulk l) = none) ∧
      (∀ l : List RValue, l.length ≠ 4 → decode4 (RValue.bulk l) = none) := by
  refine ⟨?_, ?_, fun l h => decode6_wrong_arity l h,
    fun l h => decode4_wrong_arity l h⟩
  · intro h4
    constructor
    · intro s hs
      simp [decodeRecord, h4, hs]
    · intro hn
      exact ⟨"called Result::unwrap() on an Err value",
        by simp [decodeRecord, h4, hn]⟩
  · intro hlt
    have h4 : ¬ 4 ≤ v := Nat.not_le_of_lt hlt
    constructor
    · intro s hs
      exact ⟨by simp [decodeRecord, h4, hs], rfl, rfl⟩
    · intro hn
      exact ⟨"called Result::unwrap() on an Err value",
        by simp [decodeRecord, h4, hn]⟩

theorem version_gated_schema_witness :
    decodeRecord 6 raw6 = Except.ok (entryOf6 tup6) ∧
      (∃ msg, decodeRecord 6 raw4 = Except.error msg) ∧
      (decodeRecord 0 raw4 = Except.ok (entryOf4 tup4) ∧
        (entryOf4 tup4).address = "" ∧ (entryOf4 tup4).client_name = "") ∧
      (∃ msg, decodeRecord 0 raw6 = Except.error msg) :=
  ⟨((version_gated_schema 6 raw6).1 (by decide)).1 tup6 rfl,
   ((version_gated_schema 6 raw4).1 (by decide)).2 rfl,
   ((version_gated_schema 0 raw4).2.1 (by decide)).1 tup4 rfl,
   ((version_gated_schema 0 raw6).2.1 (by decide)).2 rfl⟩

/-- C3 counterexample: a fetched record whose first command token is
"SLOWLOG" (id 7) yields no decoded entry at all — after a full poll
step the seen-registry is still empty, so its id was NOT inserted,
contrary to the claim. -/
theorem ignored_registered_cex :
    getSlowlogs 6 [rawIgnored] = Except.ok [] ∧
      pollStep 6 [] [rawIgnored] = Except.ok ([], []) ∧
      regContainsKey [] 7 = false :=
  ⟨rfl, rfl, rfl⟩

/-- C3 amended: ignored entries are dropped inside the fetch, before
deduplication — no entry surviving `get_slowlogs` is an ignored one,
and every id newly present in the registry after a batch comes from a
surviving (hence non-ignored) entry; so an ignored record's id is never
registered (and never reported). -/
theorem ignored_filtered_not_registered (v : Nat) (reg : Registry)
    (raws : List RValue) (logs : List RedisSlowlog)
    (h : getSlowlogs v raws = Except.ok logs) :
    (∀ e, e ∈ logs → shouldIgnore (e.cmd.headD "") = false) ∧
      ∀ id, regContainsKey (processBatch reg logs).1 id = true →
        regContainsKey reg id = true ∨ ∃ e, e ∈ logs ∧ e.id = id :=
  ⟨getSlowlogs_ok_not_ignored v raws logs h,
   fun id hid => processBatch_contains_after reg logs id hid⟩

theorem ignored_filtered_not_registered_witness :
    (∀ e, e ∈ ([entry6] : List RedisSlowlog) →
        shouldIgnore (e.cmd.headD "") = false) ∧
      ∀ id, regContainsKey (processBatch [] [entry6]).1 id = true →
        regContainsKey ([] : Registry) id = true ∨
          ∃ e, e ∈ [entry6] ∧ e.id = id :=
  ignored_filtered_not_registered 6 [] [raw6] [entry6] rfl

/-- C4 counterexample: the version value "1.2.3.4" has four
dot-separated parts, yet probing does not abort — it succeeds with
version 1.2.3, contrary to the claim that any shape other than exactly
three parts is fatal. -/
theorem extra_version_parts_cex :
    get_version (some "1.2.3.4") = Except.ok (some ⟨1, 2, 3⟩) := rfl

/-- C4 amended: for a non-empty version value, probing succeeds iff the
first three dot-separated parts all parse as non-negative integers
(parts beyond the third are ignored); if any of the first three is
missing or fails to parse, the process aborts. -/
theorem malformed_version_fatal (s : String) (hs : s ≠ "") :
    (∀ a b c : Nat,
        parseUsize ((rustSplitDot s).getD 0 "") = some a →
        parseUsize ((rustSplitDot s).getD 1 "") = some b →
        parseUsize ((rustSplitDot s).getD 2 "") = some c →
        get_version (some s) = Except.ok (some ⟨a, b, c⟩)) ∧
      ((parseUsize ((rustSplitDot s).getD 0 "") = none ∨
        parseUsize ((rustSplitDot s).getD 1 "") = none ∨
        parseUsize ((rustSplitDot s).getD 2 "") = none) →
        ∃ m, get_version (some s) = Except.error m) := by
  have hgv : get_version (some s) =
      (listIndex (rustSplitDot s) 0).bind fun s0 =>
        (expectParse s0 "invalid major version").bind fun major =>
          (listIndex (rustSplitDot s) 1).bind fun s1 =>
            (expectParse s1 "invalid minor version").bind fun minor =>
              (listIndex (rustSplitDot s) 2).bind fun s2 =>
                (expectParse s2 "invalid patch version").map fun patch =>
                  some { major := major, minor := minor, patch := patch } := by
    simp [get_version, hs]
  constructor
  · intro a b c h0 h1 h2
    have h0x := h0
    have h1x := h1
    have h2x := h2
    simp only [List.getD_eq_getElem?_getD] at h0x h1x h2x
    rw [hgv, listIndex_lt _ 0 (parse_getD_lt _ 0 a h0),
      listIndex_lt _ 1 (parse_getD_lt _ 1 b h1),
      listIndex_lt _ 2 (parse_getD_lt _ 2 c h2)]
    simp [Except.bind, Except.map, expectParse, h0x, h1x, h2x]
  · intro hbad
    cases h0 : parseUsize ((rustSplitDot s).getD 0 "") with
    | none =>
      have l0 : 0 < (rustSplitDot s).length := by
        cases hsp : splitChar '.' s.data with
        | nil => exact absurd hsp (splitChar_ne_nil '.' s.data)
        | cons x t => simp [rustSplitDot, hsp]
      have h0x := h0
      simp only [List.getD_eq_getElem?_getD] at h0x
      refine ⟨"invalid major version", ?_⟩
      rw [hgv, listIndex_lt _ 0 l0]
      simp [Except.bind, Except.map, expectParse, h0x]
    | some a =>
      cases h1 : parseUsize ((rustSplitDot s).getD 1 "") with
      | none =>
        by_cases l1 : 1 < (rustSplitDot s).length
        · have h0x := h0
          have h1x := h1
          simp only [List.getD_eq_getElem?_getD] at h0x h1x
          refine ⟨"invalid minor version", ?_⟩
          rw [hgv, listIndex_lt _ 0 (parse_getD_lt _ 0 a h0),
            listIndex_lt _ 1 l1]
          simp [Except.bind, Except.map, expectParse, h0x, h1x]
        · refine ⟨"index out of bounds: the len is " ++
            toString (rustSplitDot s).length ++ " but the index is " ++
            toString 1, ?_⟩
          rw [hgv, listIndex_lt _ 0 (parse_getD_lt _ 0 a h0),
            listIndex_ge _ 1 (Nat.le_of_not_lt l1)]
          have h0x := h0
          simp only [List.getD_eq_getElem?_getD] at h0x
          simp [Except.bind, Except.map, expectParse, h0x]
      | some b =>
        have h2 : parseUsize ((rustSplitDot s).getD 2 "") = none := by
          rcases hbad with h | h | h
          · rw [h0] at h
            cases h
          · rw [h1] at h
            cases h
          · exact h
        by_cases l2 : 2 < (rustSplitDot s).length
        · have h0x := h0
          have h1x := h1
          have h2x := h2
          simp only [List.getD_eq_getElem?_getD] at h0x h1x h2x
          refine ⟨"invalid patch version", ?_⟩
          rw [hgv, listIndex_lt _ 0 (parse_getD_lt _ 0 a h0),
            listIndex_lt _ 1 (parse_getD_lt _ 1 b h1),
            listIndex_lt _ 2 l2]
          simp [Except.bind, Except.map, expectParse, h0x, h1x, h2x]
        · refine ⟨"index out of bounds: the len is " ++
            toString (rustSplitDot s).length ++ " but the index is " ++
            toString 2, ?_⟩
          rw [hgv, listIndex_lt _ 0 (parse_getD_lt _ 0 a h0),
            listIndex_lt _ 1 (parse_getD_lt _ 1 b h1),
            listIndex_ge _ 2 (Nat.le_of_not_lt l2)]
          have h0x := h0
          have h1x := h1
          simp only [List.getD_eq_getElem?_getD] at h0x h1x
          simp [Except.bind, Except.map, expectParse, h0x, h1x]

theorem malformed_version_fatal_witness :
    get_version (some "6.2.6") = Except.ok (some ⟨6, 2, 6⟩) ∧
      (∃ m, get_version (some "6.x.6") = Except.error m) ∧
      (∃ m, get_version (some "6.2") = Except.error m) :=
  ⟨(malformed_version_fatal "6.2.6" (by decide)).1 6 2 6 rfl rfl rfl,
   (malformed_version_fatal "6.x.6" (by decide)).2 (Or.inr (Or.inl rfl)),
   (malformed_version_fatal "6.2" (by decide)).2 (Or.inr (Or.inr rfl))⟩

/-- C8 counterexample: a raw record whose command ran 1.5 seconds
(1500000 µs), taken through a full poll step, is printed with a time
field of 500 ms — the sub-second component — while the entry's
execution duration is 1500 ms; the printed time field is not the
execution duration in milliseconds. -/
theorem reported_ms_cex :
    Except.map (fun p => p.2.map ReportLine.time_ms)
        (pollStep 6 [] [rawSlow]) =
        Except.ok [printedMs (Duration.from_micros 1500000)] ∧
      (processBatch [] [entrySlow]).2.map ReportLine.time_ms =
        [printedMs entrySlow.exec_time] ∧
      printedMs entrySlow.exec_time = 500 ∧
      durationMs entrySlow.exec_time = 1500 ∧
      (500 : ℚ) ≠ 1500 := by
  refine ⟨rfl, rfl, ?_, ?_, by norm_num⟩
  · norm_num [printedMs, entrySlow, Duration.from_micros, Duration.subsec_nanos]
  · norm_num [durationMs, entrySlow, Duration.from_micros]

/-- C8 amended: every reported entry's printed time field is the
sub-second component of its execution duration in milliseconds
(`subsec_nanos · 10^-6`); on a duration built from `us` microseconds
the printed value is `(us % 10^6) / 1000` ms while the execution
duration is `us / 1000` ms, and the two agree exactly when the
duration is below one second (`us < 10^6`). -/
theorem reported_ms_subsec (reg : Registry) (batch : List RedisSlowlog)
    (rep : ReportLine) (h : rep ∈ (processBatch reg batch).2) :
    (∃ e, e ∈ batch ∧
        rep.time_ms = (Duration.subsec_nanos e.exec_time : ℚ) / 1000000 ∧
        (e.exec_time.secs = 0 → rep.time_ms = durationMs e.exec_time)) ∧
      ∀ us : Nat,
        printedMs (Duration.from_micros us) = ((us % 1000000 : Nat) : ℚ) / 1000 ∧
        durationMs (Duration.from_micros us) = (us : ℚ) / 1000 ∧
        (printedMs (Duration.from_micros us) =
            durationMs (Duration.from_micros us) ↔ us < 1000000) := by
  constructor
  · obtain ⟨e, he, _, hms, _⟩ := processBatch_report_mem reg batch rep h
    refine ⟨e, he, by rw [hms]; rfl, ?_⟩
    intro hsec
    rw [hms]
    unfold durationMs printedMs Duration.subsec_nanos
    rw [hsec]
    norm_num
  · intro us
    have hp : printedMs (Duration.from_micros us) =
        ((us % 1000000 : Nat) : ℚ) / 1000 := by
      unfold printedMs Duration.subsec_nanos Duration.from_micros
      push_cast
      field_simp
      ring
    have hq : durationMs (Duration.from_micros us) = (us : ℚ) / 1000 := by
      unfold durationMs Duration.from_micros
      have hcast : ((us / 1000000 : ℕ) : ℚ) * 1000000 + ((us % 1000000 : ℕ) : ℚ)
          = (us : ℚ) := by
        exact_mod_cast Nat.div_add_mod' us 1000000
      rw [← hcast]
      push_cast
      field_simp
      ring
    refine ⟨hp, hq, ?_⟩
    constructor
    · intro heq
      rw [hp, hq] at heq
      have h3 : us < 999999 + 1 := by
        field_simp at heq
        exact_mod_cast heq
      omega
    · intro hlt
      rw [hp, hq, Nat.mod_eq_of_lt hlt]

theorem reported_ms_subsec_witness :
    (∃ e, e ∈ [entrySlow] ∧
        reportSlow.time_ms = (Duration.subsec_nanos e.exec_time : ℚ) / 1000000 ∧
        (e.exec_time.secs = 0 → reportSlow.time_ms = durationMs e.exec_time)) ∧
      ∀ us : Nat,
        printedMs (Duration.from_micros us) = ((us % 1000000 : Nat) : ℚ) / 1000 ∧
        durationMs (Duration.from_micros us) = (us : ℚ) / 1000 ∧
        (printedMs (Duration.from_micros us) =
            durationMs (Duration.from_micros us) ↔ us < 1000000) :=
  reported_ms_subsec [] [entrySlow] reportSlow
    (show reportSlow ∈ [reportSlow] from List.mem_singleton_self reportSlow)

end Akame
